import Mathlib

/-!
Verification development for the thought-extraction pipeline of the
project-mcp repository (src/src/tools/thoughts.js).

The JavaScript source is shallowly embedded over `List Char`: JS strings
become character lists, the regular expressions of the source become
explicit character scanners (each definition carries the regex it embeds
in its doc comment), and the `process_thoughts` helper functions
`extractTodosFromContent`, `hasActionableIntent`, `analyzeIntent`,
`generateTitle` and `findRelatedTasks` become pure Lean functions.

Modelling conventions, noted once here:
- JS string indices are UTF-16 code units; the embedding counts Unicode
  code points. The two agree on all inputs without astral-plane
  characters, which covers every string the claims mention.
- The case folding of the source regexes (the `i` flag without the `u`
  flag) and of toLowerCase/toUpperCase is modelled ASCII-only via
  `Char.toLower` and `Char.toUpper`; the folded pattern text in the
  source is pure ASCII, where this is exact.
- The regex scanners implement the leftmost-match, greedy semantics of
  the concrete patterns of the source. For these patterns greedy
  matching needs no backtracking (argued in the doc comment of each
  scanner where it is not obvious).
-/

namespace Thoughts

/-- Character class of the JS regex escape `\w`, namely `[A-Za-z0-9_]`. -/
def isWordChar (c : Char) : Bool :=
  (65 ≤ c.toNat && c.toNat ≤ 90) || (97 ≤ c.toNat && c.toNat ≤ 122) ||
  (48 ≤ c.toNat && c.toNat ≤ 57) || c.toNat == 95

/-- Character class of the JS regex escape `\s` (WhiteSpace plus
LineTerminator), which is also the set trimmed by String.prototype.trim. -/
def isJsSpace (c : Char) : Bool :=
  c.toNat == 32 || c.toNat == 9 || c.toNat == 10 || c.toNat == 13 ||
  c.toNat == 11 || c.toNat == 12 || c.toNat == 160 || c.toNat == 5760 ||
  (8192 ≤ c.toNat && c.toNat ≤ 8202) || c.toNat == 8232 ||
  c.toNat == 8233 || c.toNat == 8239 || c.toNat == 8287 ||
  c.toNat == 12288 || c.toNat == 65279

/-- Character class of the JS regex `.` without the `s` flag: any
character except a line terminator. -/
def dotChar (c : Char) : Bool :=
  !(c.toNat == 10 || c.toNat == 13 || c.toNat == 8232 || c.toNat == 8233)

/-- String.prototype.trim: drop `\s` characters from both ends. -/
def jsTrim (l : List Char) : List Char :=
  ((l.dropWhile isJsSpace).reverse.dropWhile isJsSpace).reverse

/-- String.prototype.split with separator a single newline character. -/
def splitLines : List Char → List (List Char)
  | [] => [[]]
  | c :: rest =>
    if c == '\n' then [] :: splitLines rest
    else
      match splitLines rest with
      | [] => [[c]]
      | hd :: tl => (c :: hd) :: tl

/-- Array.prototype.join with a separator. -/
def joinWith (sep : List Char) : List (List Char) → List Char
  | [] => []
  | [x] => x
  | x :: xs => x ++ sep ++ joinWith sep xs

/-- Case-sensitive literal prefix test. -/
def prefixAt : List Char → List Char → Bool
  | [], _ => true
  | _ :: _, [] => false
  | a :: pa, c :: cs => a == c && prefixAt pa cs

/-- String.prototype.includes: the pattern occurs as a contiguous
substring. -/
def hasSub (pat : List Char) : List Char → Bool
  | [] => prefixAt pat []
  | c :: t => prefixAt pat (c :: t) || hasSub pat t

/-- String.prototype.indexOf for a pattern known to occur (the only use
in the source passes text just matched out of the same string); on the
unreachable not-found case this returns the clamped end instead of -1. -/
def indexOfSub : List Char → List Char → Nat
  | [], _ => 0
  | c :: t, sub => if prefixAt sub (c :: t) then 0 else 1 + indexOfSub t sub

/-- Case-insensitive (ASCII-folded) literal prefix test: the pattern is
stored lowercased and each subject character is folded before compare. -/
def lowerPre : List Char → List Char → Bool
  | [], _ => true
  | _ :: _, [] => false
  | a :: ws, c :: cs => a == c.toLower && lowerPre ws cs

/-- Word-boundary condition of `\b` on the side of the previous
character: start of string or a non-word character. -/
def prevNonWord : Option Char → Bool
  | none => true
  | some c => !isWordChar c

/-- One alternative of a `\b(a|b|...)\b` pattern matched at the current
position: the lowercased alternative is a folded prefix and the first
character after it (if any) is a non-word character. Every alternative in
the source starts and ends with a word character, so the two `\b` reduce
to exactly these side conditions. -/
def matchHere (w s : List Char) : Bool :=
  lowerPre w s &&
    (match s.drop w.length with
     | [] => true
     | c :: _ => !isWordChar c)

/-- Scan every position of the subject; a hit needs the word-boundary
condition on the previous character plus the position test. -/
def scanHit (hereTest : List Char → Bool) : Option Char → List Char → Bool
  | _, [] => false
  | prev, c :: cs => (prevNonWord prev && hereTest (c :: cs)) || scanHit hereTest (some c) cs

/-- RegExp.prototype.test for a case-insensitive `\b(a1|a2|...)\b`
alternation of literal words. -/
def testWordAlt (alts : List (List Char)) (s : List Char) : Bool :=
  scanHit (fun t => alts.any (fun w => matchHere w t)) none s

/-- Leftmost match of a case-insensitive `\b(a1|a2|...)\b` alternation,
returning the matched text in its original casing (JS match[0]).
Alternatives are tried in pattern order at each position. -/
def faGo (alts : List (List Char)) : Option Char → List Char → Option (List Char)
  | _, [] => none
  | prev, c :: cs =>
    if prevNonWord prev then
      match alts.find? (fun w => matchHere w (c :: cs)) with
      | some w => some ((c :: cs).take w.length)
      | none => faGo alts (some c) cs
    else faGo alts (some c) cs

/-- See `faGo`. -/
def firstAltMatch (alts : List (List Char)) (s : List Char) : Option (List Char) :=
  faGo alts none s

/-- INTENT_MARKERS.explicit, first pattern:
`\b(need to|have to|must|should|will|going to|want to|plan to)\b` i. -/
def explicit1 : List (List Char) :=
  ["need to", "have to", "must", "should", "will", "going to", "want to", "plan to"].map String.data

/-- INTENT_MARKERS.explicit, second pattern:
`\b(implement|create|build|add|fix|update|change|remove|delete)\b` i. -/
def explicit2 : List (List Char) :=
  ["implement", "create", "build", "add", "fix", "update", "change", "remove", "delete"].map String.data

/-- INTENT_MARKERS.explicit, third pattern:
`\b(task|todo|action item|deliverable)\b` i. -/
def explicit3 : List (List Char) :=
  ["task", "todo", "action item", "deliverable"].map String.data

/-- INTENT_MARKERS.explicit.some on a given text. -/
def explicitAny (s : List Char) : Bool :=
  testWordAlt explicit1 s || testWordAlt explicit2 s || testWordAlt explicit3 s

/-- INTENT_MARKERS.shadow, first pattern alternatives. -/
def shadow1 : List (List Char) :=
  ["because", "since", "so that", "in order to", "to enable", "to allow", "to prevent"].map String.data

/-- INTENT_MARKERS.shadow, second pattern alternatives. -/
def shadow2 : List (List Char) :=
  ["worried about", "concerned", "frustrated", "annoying", "painful", "tedious"].map String.data

/-- INTENT_MARKERS.shadow, third pattern alternatives. -/
def shadow3 : List (List Char) :=
  ["would be nice", "could", "might", "maybe", "possibly", "eventually"].map String.data

/-- First group of the fourth shadow pattern
`(users|customers|team|stakeholders)\s+(want|need|expect|complain)` i. -/
def stakeFirsts : List (List Char) :=
  ["users", "customers", "team", "stakeholders"].map String.data

/-- Second group of the fourth shadow pattern. -/
def stakeSeconds : List (List Char) :=
  ["want", "need", "expect", "complain"].map String.data

/-- Match of the fourth shadow pattern at the current position, returning
the matched length. The pattern has no word boundaries; `\s+` is greedy
and needs no backtracking because the second group starts with a word
character; the first-group alternatives start with distinct letters, so
find? in pattern order is exact. -/
def stakeLenAt (s : List Char) : Option Nat :=
  match stakeFirsts.find? (fun w => lowerPre w s) with
  | some w =>
    let rest := s.drop w.length
    let sp := rest.takeWhile isJsSpace
    if sp.isEmpty then none
    else
      match stakeSeconds.find? (fun v => lowerPre v (rest.drop sp.length)) with
      | some v => some (w.length + sp.length + v.length)
      | none => none
  | none => none

/-- Leftmost match of the fourth shadow pattern (JS match[0]). -/
def stakeGo : List Char → Option (List Char)
  | [] => none
  | c :: cs =>
    match stakeLenAt (c :: cs) with
    | some n => some ((c :: cs).take n)
    | none => stakeGo cs

/-- Alternatives of INTENT_MARKERS.practical, first pattern, other than
the `step \d+` alternative. -/
def prac1alts : List (List Char) :=
  ["first", "then", "next", "finally", "after that"].map String.data

/-- INTENT_MARKERS.practical, second pattern alternatives. -/
def prac2 : List (List Char) :=
  ["file", "function", "class", "module", "component", "api", "endpoint", "database"].map String.data

/-- INTENT_MARKERS.practical, third pattern alternatives. -/
def prac3 : List (List Char) :=
  ["test", "deploy", "configure", "setup", "install", "migrate"].map String.data

/-- The `step \d+` alternative matched at the current position: folded
prefix `step `, then a maximal nonempty digit run, then the trailing
word boundary. -/
def matchStepHere (s : List Char) : Bool :=
  lowerPre "step ".data s &&
    (let rest := s.drop 5
     let ds := rest.takeWhile Char.isDigit
     !ds.isEmpty &&
       (match rest.drop ds.length with
        | [] => true
        | c :: _ => !isWordChar c))

/-- RegExp.prototype.test for the first practical pattern
`\b(step \d+|first|then|next|finally|after that)\b` i. -/
def testPractical1 (s : List Char) : Bool :=
  scanHit (fun t => matchStepHere t || prac1alts.any (fun w => matchHere w t)) none s

/-- String.prototype.substring window around the first occurrence of the
matched text, then trimmed, as built for each shadow match:
start = max 0 (idx - 20), end = min length (idx + matchLength + 50). -/
def matchWindow (combined m : List Char) : List Char :=
  let idx := indexOfSub combined m
  let st := idx - 20
  let en := min combined.length (idx + m.length + 50)
  jsTrim ((combined.drop st).take (en - st))

/-- Shadow-intent extraction over the combined text: each of the four
shadow patterns contributes the trimmed window around its first match;
the windows are joined with a semicolon separator, or the result is null
when no pattern matched. -/
def shadowOf (combined : List Char) : Option (List Char) :=
  let ms := List.reduceOption
    [firstAltMatch shadow1 combined, firstAltMatch shadow2 combined,
     firstAltMatch shadow3 combined, stakeGo combined]
  match ms.map (matchWindow combined) with
  | [] => none
  | ws => some (joinWith "; ".data ws)

/-- Practical-intent extraction: for each practical pattern that tests
true on the combined text, the source pushes the regex source text with
backslash-b and parentheses removed, then joins them after the prefix
word Involves. -/
def practicalNote (combined : List Char) : Option (List Char) :=
  let ms :=
    (if testPractical1 combined then ["step \\d+|first|then|next|finally|after that".data] else []) ++
    (if testWordAlt prac2 combined then ["file|function|class|module|component|api|endpoint|database".data] else []) ++
    (if testWordAlt prac3 combined then ["test|deploy|configure|setup|install|migrate".data] else [])
  match ms with
  | [] => none
  | _ => some ("Involves: ".data ++ joinWith ", ".data ms)

/-- Task priorities P0 (most urgent) through P3. -/
inductive Priority where
  | P0
  | P1
  | P2
  | P3
deriving DecidableEq, Repr

/-- The currentOrder table of analyzeIntent: P0 maps to 0, ..., P3 to 3. -/
def priOrder : Priority → Nat
  | .P0 => 0
  | .P1 => 1
  | .P2 => 2
  | .P3 => 3

/-- INTENT_MARKERS.urgency.P0 alternatives. -/
def urgencyP0 : List (List Char) :=
  ["critical", "blocker", "urgent", "asap", "immediately", "breaking", "down", "outage"].map String.data

/-- INTENT_MARKERS.urgency.P1 alternatives. -/
def urgencyP1 : List (List Char) :=
  ["important", "high priority", "soon", "this week", "pressing", "significant"].map String.data

/-- INTENT_MARKERS.urgency.P2 alternatives. -/
def urgencyP2 : List (List Char) :=
  ["medium", "normal", "standard", "regular", "when possible"].map String.data

/-- INTENT_MARKERS.urgency.P3 alternatives. -/
def urgencyP3 : List (List Char) :=
  ["low priority", "nice to have", "eventually", "someday", "minor", "trivial"].map String.data

/-- The urgency loop of analyzeIntent: Object.entries iterates the tiers
in insertion order P0, P1, P2, P3, the first tier whose pattern matches
wins via break, and the priority field was initialised to P2. -/
def tierScan (combined : List Char) : Priority :=
  if testWordAlt urgencyP0 combined then .P0
  else if testWordAlt urgencyP1 combined then .P1
  else if testWordAlt urgencyP2 combined then .P2
  else if testWordAlt urgencyP3 combined then .P3
  else .P2

/-- The keyword loop of analyzeIntent over PRIORITY_KEYWORDS: the first
keyword included in the lowercased text is considered, the priority is
replaced only when the keyword priority is strictly more urgent, and the
loop breaks after that first hit. PRIORITY_KEYWORDS itself lives in
src/lib/constants.js, which is not part of the source snapshot, so the
table is a parameter here; every claim below holds for any table. -/
def keywordPass (kw : List (List Char × Priority)) (textLower : List Char) (p : Priority) : Priority :=
  match kw with
  | [] => p
  | (k, pri) :: rest =>
    if hasSub k textLower then (if priOrder pri < priOrder p then pri else p)
    else keywordPass rest textLower p

/-- Global scan of `\[([^\]]+)\]`, collecting the captured group of each
match (the text between the brackets, JS slice(1,-1)). An automaton
state some rev means the scan is inside a potential group opened by a
bracket, with rev the reversed content so far; the greedy `[^\]]+` run is
exactly the characters up to the first closing bracket, an empty run is
no match and the scan resumes at the closing bracket, and an unclosed
opening bracket can never be followed by any later match. -/
def bgGo : Option (List Char) → List Char → List (List Char)
  | _, [] => []
  | none, c :: rest => if c == '[' then bgGo (some []) rest else bgGo none rest
  | some rev, c :: rest =>
    if c == ']' then
      if rev.isEmpty then bgGo none rest else rev.reverse :: bgGo none rest
    else bgGo (some (c :: rev)) rest

/-- Captured groups of text.match with the global bracket-tag regex. -/
def bracketGroups (s : List Char) : List (List Char) :=
  bgGo none s

/-- Global scan of `#(\w+)`, collecting the captured word of each match
(JS slice(1)). State some rev means a hash was seen and rev is the
reversed word accumulated so far. -/
def hwGo : Option (List Char) → List Char → List (List Char)
  | none, [] => []
  | some rev, [] => if rev.isEmpty then [] else [rev.reverse]
  | none, c :: rest => if c == '#' then hwGo (some []) rest else hwGo none rest
  | some rev, c :: rest =>
    if isWordChar c then hwGo (some (c :: rev)) rest
    else if rev.isEmpty then (if c == '#' then hwGo (some []) rest else hwGo none rest)
    else rev.reverse :: (if c == '#' then hwGo (some []) rest else hwGo none rest)

/-- Captured words of text.match with the global hashtag regex. -/
def hashWords (s : List Char) : List (List Char) :=
  hwGo none s

/-- One extracted todo candidate. The source field named section is
called sectionName here because section is a Lean keyword; isExplicitTodo
is the flag the spec calls isExplicitChecklistItem. -/
structure Todo where
  raw : List Char
  sectionName : Option (List Char)
  context : List (List Char)
  lineNumber : Nat
  isExplicitTodo : Bool
deriving DecidableEq, Repr

/-- The analysis record produced by analyzeIntent. The explicit field is
assigned the raw candidate text unconditionally. -/
structure Analysis where
  explicit : List Char
  shadow : Option (List Char)
  practical : Option (List Char)
  priority : Priority
  confidence : Nat
  tags : List (List Char)
deriving DecidableEq, Repr

/-- Join of the context lines with single spaces (Array.join with the
default-like single space separator used in the source). -/
def joinSp : List (List Char) → List Char
  | [] => []
  | [x] => x
  | x :: xs => x ++ ' ' :: joinSp xs

/-- The combined text of analyzeIntent: the template literal of the raw
candidate text, one space, and the joined context. -/
def combinedOf (todo : Todo) : List Char :=
  todo.raw ++ ' ' :: joinSp todo.context

/-- analyzeIntent of the source, with the PRIORITY_KEYWORDS table as a
parameter (see keywordPass). Confidence is the saturating sum of +40 for
an explicit checklist candidate, +30 for an explicit-intent pattern on
the raw text, +15 for a shadow rationale and +15 for a practical note,
capped at 100; tags are all bracket groups of the raw text followed by
all hashtags of the raw text, lowercased. -/
def analyzeIntent (kw : List (List Char × Priority)) (todo : Todo) : Analysis :=
  let text := todo.raw
  let combined := combinedOf todo
  let shadow := shadowOf combined
  let practical := practicalNote combined
  let priority := keywordPass kw (combined.map Char.toLower) (tierScan combined)
  let tags := (bracketGroups text).map (List.map Char.toLower) ++
              (hashWords text).map (List.map Char.toLower)
  let confidence := min 100
    ((if todo.isExplicitTodo then 40 else 0) +
     (if explicitAny text then 30 else 0) +
     (if shadow.isSome then 15 else 0) +
     (if practical.isSome then 15 else 0))
  { explicit := text, shadow := shadow, practical := practical,
    priority := priority, confidence := confidence, tags := tags }

/-- generateTitle step 1, replace of anchored `\[[ x]\]\s*` by the empty
string: strip one leading checkbox marker and the whitespace after it. -/
def stripCheckbox (l : List Char) : List Char :=
  match l with
  | a :: b :: c :: rest =>
    if a == '[' && (b == ' ' || b == 'x') && c == ']' then rest.dropWhile isJsSpace
    else l
  | _ => l

/-- generateTitle step 2, global replace of `\[[^\]]+\]` by the empty
string, with the same scan structure as bgGo. -/
def remBrGo : Option (List Char) → List Char → List Char
  | none, [] => []
  | some rev, [] => '[' :: rev.reverse
  | none, c :: rest => if c == '[' then remBrGo (some []) rest else c :: remBrGo none rest
  | some rev, c :: rest =>
    if c == ']' then
      if rev.isEmpty then '[' :: ']' :: remBrGo none rest else remBrGo none rest
    else remBrGo (some (c :: rev)) rest

/-- See remBrGo. -/
def removeBrackets (l : List Char) : List Char :=
  remBrGo none l

/-- True when the list starts with a word character. -/
def headWord : List Char → Bool
  | [] => false
  | d :: _ => isWordChar d

/-- generateTitle step 3, global replace of `#\w+` by the empty string.
The flag records that the scan is inside a hashtag word run being
dropped. -/
def remHashGo (skipping : Bool) : List Char → List Char
  | [] => []
  | c :: rest =>
    if skipping && isWordChar c then remHashGo true rest
    else if c == '#' && headWord rest then remHashGo true rest
    else c :: remHashGo false rest

/-- See remHashGo. -/
def removeHashtags (l : List Char) : List Char :=
  remHashGo false l

/-- Alternatives of the generateTitle leading-obligation pattern
`(need to|have to|must|should|will|want to)\s+` i, anchored, replaced
once. Note that this list is shorter than explicit1. -/
def obligationAlts : List (List Char) :=
  ["need to", "have to", "must", "should", "will", "want to"].map String.data

/-- generateTitle step 4: if some obligation alternative is a folded
prefix immediately followed by a whitespace character, drop it together
with the greedy whitespace run. The alternatives differ within their
first two characters, so at most one can be a prefix and pattern-order
find? is exact. -/
def stripObligation (l : List Char) : List Char :=
  match obligationAlts.find?
      (fun w => lowerPre w l &&
        (match l.drop w.length with | c :: _ => isJsSpace c | [] => false)) with
  | some w => (l.drop w.length).dropWhile isJsSpace
  | none => l

/-- generateTitle step 5, global replace of `\s+` by one space. The flag
records that the previous character was part of a whitespace run already
replaced. -/
def collapseGo (flag : Bool) : List Char → List Char
  | [] => []
  | c :: rest =>
    if isJsSpace c then
      (if flag then collapseGo true rest else ' ' :: collapseGo true rest)
    else c :: collapseGo false rest

/-- See collapseGo. -/
def collapseWs (l : List Char) : List Char :=
  collapseGo false l

/-- generateTitle step 7: charAt(0).toUpperCase() + slice(1), ASCII
model. -/
def capitalize : List Char → List Char
  | [] => []
  | c :: rest => c.toUpper :: rest

/-- generateTitle step 8: truncate to 80 with a three-dot ellipsis. -/
def truncate80 (l : List Char) : List Char :=
  if l.length > 80 then l.take 77 ++ ['.', '.', '.'] else l

/-- generateTitle of the source: checkbox strip, bracket-tag removal,
hashtag removal, one leading obligation strip, whitespace collapse, trim,
capitalisation, truncation. -/
def generateTitle (raw : List Char) : List Char :=
  truncate80 (capitalize (jsTrim (collapseWs (stripObligation
    (removeHashtags (removeBrackets (stripCheckbox raw)))))))

/-- Match of the header regex, one to six hash marks then `\s+(.+)`, anchored, on an already
trimmed line, returning the second capture. With one to six leading hash
marks the greedy quantifiers need no backtracking; the dot-excluded
characters are all whitespace, so after dropping the mandatory
whitespace run the capture is the maximal dot run. -/
def headerMatch (l : List Char) : Option (List Char) :=
  let hs := l.takeWhile (fun c => c == '#')
  if 1 ≤ hs.length && hs.length ≤ 6 then
    let rest := l.drop hs.length
    let sp := rest.takeWhile isJsSpace
    if sp.isEmpty then none
    else
      let cap := (rest.dropWhile isJsSpace).takeWhile dotChar
      if cap.isEmpty then none else some cap
  else none

/-- Match of the checklist regex `[-*]\s*\[[ x]\]\s*(.+)` anchored,
returning the capture. -/
def checklistMatch (l : List Char) : Option (List Char) :=
  match l with
  | c :: rest =>
    if c == '-' || c == '*' then
      match rest.dropWhile isJsSpace with
      | b1 :: b2 :: b3 :: rest2 =>
        if b1 == '[' && (b2 == ' ' || b2 == 'x') && b3 == ']' then
          let cap := (rest2.dropWhile isJsSpace).takeWhile dotChar
          if cap.isEmpty then none else some cap
        else none
      | _ => none
    else none
  | [] => none

/-- Match of the bullet regex `[-*]\s+(.+)` anchored, returning the
capture. -/
def bulletMatch (l : List Char) : Option (List Char) :=
  match l with
  | c :: rest =>
    if c == '-' || c == '*' then
      if (rest.takeWhile isJsSpace).isEmpty then none
      else
        let cap := (rest.dropWhile isJsSpace).takeWhile dotChar
        if cap.isEmpty then none else some cap
    else none
  | [] => none

/-- Match of the numbered regex `(\d+)\.\s+(.+)` anchored, returning the
second capture, which is the text the source selects via
todoMatch[2]. -/
def numberedMatch (l : List Char) : Option (List Char) :=
  let ds := l.takeWhile Char.isDigit
  if ds.isEmpty then none
  else
    match l.drop ds.length with
    | p :: rest =>
      if p == '.' then
        if (rest.takeWhile isJsSpace).isEmpty then none
        else
          let cap := (rest.dropWhile isJsSpace).takeWhile dotChar
          if cap.isEmpty then none else some cap
      else none
    | [] => none

/-- The todoMatch chain of the source: checklist, else plain bullet,
else numbered item. -/
def todoMatch (l : List Char) : Option (List Char) :=
  match checklistMatch l with
  | some t => some t
  | none =>
    match bulletMatch l with
    | some t => some t
    | none => numberedMatch l

/-- The test `\[[ x]\]` anchored, run by the source on the whole trimmed
line to set isExplicitTodo. -/
def startsCheckbox (l : List Char) : Bool :=
  match l with
  | a :: b :: c :: _ => a == '[' && (b == ' ' || b == 'x') && c == ']'
  | _ => false

/-- Alternatives of the interrogative test
`(what|how|why|when|where|who|is|are|was|were|do|does)\b` i anchored. -/
def interrogWords : List (List Char) :=
  ["what", "how", "why", "when", "where", "who", "is", "are", "was", "were", "do", "does"].map String.data

/-- Anchored interrogative-word test of hasActionableIntent. -/
def interrogStart (line : List Char) : Bool :=
  interrogWords.any (fun w => matchHere w line)

/-- String.prototype.endsWith for a question mark. -/
def endsWithQM (l : List Char) : Bool :=
  match l.getLast? with
  | some c => c == '?'
  | none => false

/-- hasActionableIntent of the source: an explicit-intent pattern must
match, the line must be at least 15 characters, and it must be neither
interrogative-initial nor question-terminated. -/
def hasActionableIntent (line : List Char) : Bool :=
  explicitAny line && !(line.length < 15) && !interrogStart line && !endsWithQM line

/-- The line loop of extractTodosFromContent. Arguments: remaining
lines, current zero-based index, the previous raw line, the current
section, the rolling context. Mirrors the source: header lines set the
section and clear the context; a blank line clears the context when the
previous line was also blank; a todo match of at least five characters
emits a candidate flagged by startsCheckbox on the trimmed line; a
non-list line with actionable intent emits a candidate; anything else is
pushed into the context ring of size three. -/
def extractGo : List (List Char) → Nat → Option (List Char) → Option (List Char) → List (List Char) → List Todo
  | [], _, _, _, _ => []
  | line :: rest, i, prev, sec, ctx =>
    let trimmed := jsTrim line
    match headerMatch trimmed with
    | some h => extractGo rest (i + 1) (some line) (some h) []
    | none =>
      if trimmed.isEmpty then
        let ctx2 :=
          if 0 < ctx.length && (match prev with | some p => (jsTrim p).isEmpty | none => false)
          then [] else ctx
        extractGo rest (i + 1) (some line) sec ctx2
      else
        match todoMatch trimmed with
        | some text =>
          if 5 ≤ text.length then
            { raw := jsTrim text, sectionName := sec, context := ctx, lineNumber := i + 1,
              isExplicitTodo := startsCheckbox trimmed } :: extractGo rest (i + 1) (some line) sec ctx
          else extractGo rest (i + 1) (some line) sec ctx
        | none =>
          if hasActionableIntent trimmed then
            { raw := trimmed, sectionName := sec, context := ctx, lineNumber := i + 1,
              isExplicitTodo := false } :: extractGo rest (i + 1) (some line) sec ctx
          else
            let c2 := ctx ++ [trimmed]
            extractGo rest (i + 1) (some line) sec (if 3 < c2.length then c2.tail else c2)

/-- extractTodosFromContent of the source. -/
def extractTodosFromContent (content : List Char) : List Todo :=
  extractGo (splitLines content) 0 none none []

/-- An existing task as consumed by findRelatedTasks (the fields it
reads). -/
structure TaskRec where
  id : List Char
  title : List Char
  status : List Char
deriving DecidableEq, Repr

/-- A related-task entry as built by findRelatedTasks. The similarity is
modelled in the rationals; for the small integer counts involved the JS
double division compares against 0.5 exactly as the rational does, and
the not-a-number case of zero by zero compares false exactly as the
rational zero does. -/
structure RelatedEntry where
  id : List Char
  title : List Char
  status : List Char
  similarity : ℚ
deriving DecidableEq, Repr

/-- String.prototype.split on `\s+`: separator runs split the string,
and a leading or trailing run contributes an empty piece. State some rev
is inside a piece (reversed so far), none is inside a separator run. -/
def swGo : Option (List Char) → List Char → List (List Char)
  | none, [] => [[]]
  | some rev, [] => [rev.reverse]
  | none, c :: rest => if isJsSpace c then swGo none rest else swGo (some [c]) rest
  | some rev, c :: rest =>
    if isJsSpace c then rev.reverse :: swGo none rest else swGo (some (c :: rev)) rest

/-- See swGo. -/
def splitWsTokens (l : List Char) : List (List Char) :=
  swGo (some []) l

/-- The candidate-title tokens of findRelatedTasks: lowercase the title,
split on whitespace, keep tokens longer than three characters. -/
def titleWords (title : List Char) : List (List Char) :=
  (splitWsTokens (title.map Char.toLower)).filter (fun w => 3 < w.length)

/-- The matchingWords count of findRelatedTasks for one existing task:
how many candidate tokens occur as substrings of the lowercased task
title. -/
def matchCount (tw : List (List Char)) (taskTitle : List Char) : Nat :=
  (tw.filter (fun w => hasSub w (taskTitle.map Char.toLower))).length

/-- The relatedness condition of findRelatedTasks: at least two matches,
or a match ratio above one half. -/
def relatedCond (tw : List (List Char)) (taskTitle : List Char) : Prop :=
  2 ≤ matchCount tw taskTitle ∨
    ((matchCount tw taskTitle : ℚ) / (tw.length : ℚ) > 1 / 2)

instance (tw : List (List Char)) (taskTitle : List Char) : Decidable (relatedCond tw taskTitle) := by
  unfold relatedCond
  infer_instance

/-- The selection loop of findRelatedTasks: every task meeting the
relatedness condition contributes an entry carrying its match ratio. -/
def relatedList (tw : List (List Char)) (tasks : List TaskRec) : List RelatedEntry :=
  tasks.filterMap (fun t =>
    if relatedCond tw t.title then
      some { id := t.id, title := t.title, status := t.status,
             similarity := (matchCount tw t.title : ℚ) / (tw.length : ℚ) }
    else none)

/-- The descending comparator of findRelatedTasks, as the total boolean
order fed to the stable sort: a may precede b when the similarity of b
does not exceed that of a. -/
def simGE (a b : RelatedEntry) : Bool :=
  decide (b.similarity ≤ a.similarity)

/-- findRelatedTasks of the source: filter, stable sort by similarity
descending, keep the first three. -/
def findRelatedTasks (title : List Char) (tasks : List TaskRec) : List RelatedEntry :=
  ((relatedList (titleWords title) tasks).mergeSort simGE).take 3

/-- The note text of the checklist scenario. -/
def c1text : List Char := "- [ ] Need to fix login bug - urgent!".data

/-- The single candidate the source extracts from c1text. -/
def c1todo : Todo :=
  { raw := "Need to fix login bug - urgent!".data, sectionName := none,
    context := [], lineNumber := 1, isExplicitTodo := false }

/-- The question line of the interrogative scenario, built around the
apostrophe character. -/
def qLine : List Char :=
  "What".data ++ [Char.ofNat 39] ++ "s causing the slow query?".data

/-- A concrete candidate whose combined text carries a P1 urgency word
but no P0 word. -/
def w6todo : Todo :=
  { raw := "add tests soon".data, sectionName := none, context := [],
    lineNumber := 1, isExplicitTodo := false }

/-- A concrete candidate title and task for the C8 witness. -/
def w8title : List Char := "improve login handling flow".data

/-- A concrete task related to w8title. -/
def w8task : TaskRec :=
  { id := "T1".data, title := "Login handling rework".data, status := "todo".data }

/-- A candidate whose raw text has a hashtag before a bracket group. -/
def c7todo : Todo :=
  { raw := "#aa [bb]".data, sectionName := none, context := [],
    lineNumber := 1, isExplicitTodo := false }

/-- Tag extraction in the order the claim describes, as a single
left-to-right scan of the raw text that collects each bracket group or
hashtag at the position where it appears. This definition follows the
words of the claim for comparison with the code and is fuel-indexed only
to be structurally recursive; fuel equal to the text length suffices. -/
def specTagsGo : Nat → List Char → List (List Char)
  | 0, _ => []
  | _, [] => []
  | fuel + 1, c :: rest =>
    if c == '[' then
      let inner := rest.takeWhile (fun d => !(d == ']'))
      if !inner.isEmpty && !((rest.drop inner.length).isEmpty) then
        inner.map Char.toLower :: specTagsGo fuel ((rest.drop inner.length).drop 1)
      else specTagsGo fuel rest
    else if c == '#' then
      let w := rest.takeWhile isWordChar
      if w.isEmpty then specTagsGo fuel rest
      else w.map Char.toLower :: specTagsGo fuel (rest.drop w.length)
    else specTagsGo fuel rest

/-- See specTagsGo. -/
def specTagsInOrder (s : List Char) : List (List Char) :=
  specTagsGo s.length s

/-- True when the list is empty or starts with a non-word character. -/
def headOrNonWord : List Char → Bool
  | [] => true
  | d :: _ => !isWordChar d

/-- True when the list is empty or starts with a non-whitespace
character. -/
def headNonSpace : List Char → Bool
  | [] => true
  | d :: _ => !isJsSpace d

/-- A pointwise cleanliness predicate: the condition holds between every
element and the suffix after it. -/
def sClean (cond : Char → List Char → Bool) : List Char → Bool
  | [] => true
  | c :: rest => cond c rest && sClean cond rest

/-- Position condition for bracket-freeness: an opening bracket is
either immediately closed (so the greedy inner run is empty) or never
closed (no closing bracket occurs later). A list is sClean brCond
exactly when the bracket-removal regex has no match in it. -/
def brCond (c : Char) (rest : List Char) : Bool :=
  if c == '[' then
    ((rest.takeWhile (fun d => !(d == ']'))).isEmpty ||
     (rest.dropWhile (fun d => !(d == ']'))).isEmpty)
  else true

/-- Position condition for hashtag-freeness: a hash is never followed by
a word character. -/
def hashCond (c : Char) (rest : List Char) : Bool :=
  if c == '#' then headOrNonWord rest else true

/-- Position condition for collapsed whitespace: every whitespace
character is a plain space not followed by more whitespace. -/
def colCond (c : Char) (rest : List Char) : Bool :=
  if isJsSpace c then (c == ' ' && headNonSpace rest) else true

/-- The keyword loop never replaces a priority by a strictly less urgent
one. -/
theorem keywordPass_le (kw : List (List Char × Priority)) (t : List Char) (p : Priority) :
    priOrder (keywordPass kw t p) ≤ priOrder p := by
  induction kw with
  | nil => exact le_refl _
  | cons e rest ih =>
    obtain ⟨k, pri⟩ := e
    unfold keywordPass
    by_cases h : hasSub k t = true
    · rw [if_pos h]
      by_cases h2 : priOrder pri < priOrder p
      · rw [if_pos h2]; exact le_of_lt h2
      · rw [if_neg h2]
    · rw [if_neg (by simpa using h)]
      exact ih

/-- A P0 priority is a fixed point of the keyword loop. -/
theorem keywordPass_fix (kw : List (List Char × Priority)) (t : List Char) :
    keywordPass kw t Priority.P0 = Priority.P0 := by
  induction kw with
  | nil => rfl
  | cons e rest ih =>
    obtain ⟨k, pri⟩ := e
    unfold keywordPass
    by_cases h : hasSub k t = true
    · rw [if_pos h, if_neg (by simp [priOrder])]
    · rw [if_neg (by simpa using h)]
      exact ih

/-- C2. The keyword-table priority pass only upgrades, never downgrades:
the final priority of analyzeIntent is never of lower urgency (larger
currentOrder value) than the priority of the urgency-tier scan, for any
keyword table; and in particular a first-matching keyword-table entry
mapping to P2 leaves a tier-scan priority of P1 unchanged. -/
theorem priority_upgrade_only (kw : List (List Char × Priority)) (todo : Todo) :
    priOrder (analyzeIntent kw todo).priority ≤ priOrder (tierScan (combinedOf todo)) ∧
    (∀ k rest t, hasSub k t = true →
      keywordPass ((k, Priority.P2) :: rest) t Priority.P1 = Priority.P1) := by
  constructor
  · have h : (analyzeIntent kw todo).priority
        = keywordPass kw ((combinedOf todo).map Char.toLower) (tierScan (combinedOf todo)) := rfl
    rw [h]
    exact keywordPass_le _ _ _
  · intro k rest t h
    unfold keywordPass
    rw [if_pos h, if_neg (by simp [priOrder])]

/-- Witness for C2 at a concrete keyword and text. -/
theorem priority_upgrade_only_witness :
    hasSub "bug".data "fix the bug".data = true ∧
    keywordPass [("bug".data, Priority.P2)] "fix the bug".data Priority.P1 = Priority.P1 :=
  ⟨by decide,
   (priority_upgrade_only [] w6todo).2 "bug".data [] "fix the bug".data (by decide)⟩

/-- C3. Extraction is deterministic: the extractor is a pure function of
the note text, so two runs on identical text yield identical candidate
sequences, with the same raw text, section, context, line numbers and
checklist flags in the same order. -/
theorem extract_deterministic (content : List Char) :
    extractTodosFromContent content = extractTodosFromContent content := rfl

/-- C5. The confidence of analyzeIntent equals the saturating sum of
+40 for an explicit checklist candidate, +30 for an explicit-intent
match on the raw text, +15 for a shadow rationale, +15 for a practical
note, capped at 100; in particular it always lies between 0 and 100 (it
is a natural number here, so the lower bound is by type). -/
theorem confidence_bounds (kw : List (List Char × Priority)) (todo : Todo) :
    (analyzeIntent kw todo).confidence
      = min 100 ((if todo.isExplicitTodo then 40 else 0) +
                 (if explicitAny todo.raw then 30 else 0) +
                 (if (analyzeIntent kw todo).shadow.isSome then 15 else 0) +
                 (if (analyzeIntent kw todo).practical.isSome then 15 else 0)) ∧
    (analyzeIntent kw todo).confidence ≤ 100 := by
  refine ⟨rfl, ?_⟩
  have h : (analyzeIntent kw todo).confidence
      = min 100 ((if todo.isExplicitTodo then 40 else 0) +
                 (if explicitAny todo.raw then 30 else 0) +
                 (if (analyzeIntent kw todo).shadow.isSome then 15 else 0) +
                 (if (analyzeIntent kw todo).practical.isSome then 15 else 0)) := rfl
  rw [h]
  exact min_le_left _ _

/-- C6. The priority before the keyword pass is the urgency-tier scan of
the combined candidate-plus-context text, the tiers are consulted in the
strict order P0, P1, P2, P3, the first tier with a match wins, and the
default is P2 when no tier matches. -/
theorem tier_order_characterization (kw : List (List Char × Priority)) (todo : Todo) :
    (analyzeIntent kw todo).priority
      = keywordPass kw ((combinedOf todo).map Char.toLower) (tierScan (combinedOf todo)) ∧
    (testWordAlt urgencyP0 (combinedOf todo) = true → tierScan (combinedOf todo) = .P0) ∧
    (testWordAlt urgencyP0 (combinedOf todo) = false →
      testWordAlt urgencyP1 (combinedOf todo) = true → tierScan (combinedOf todo) = .P1) ∧
    (testWordAlt urgencyP0 (combinedOf todo) = false →
      testWordAlt urgencyP1 (combinedOf todo) = false →
      testWordAlt urgencyP2 (combinedOf todo) = true → tierScan (combinedOf todo) = .P2) ∧
    (testWordAlt urgencyP0 (combinedOf todo) = false →
      testWordAlt urgencyP1 (combinedOf todo) = false →
      testWordAlt urgencyP2 (combinedOf todo) = false →
      testWordAlt urgencyP3 (combinedOf todo) = true → tierScan (combinedOf todo) = .P3) ∧
    (testWordAlt urgencyP0 (combinedOf todo) = false →
      testWordAlt urgencyP1 (combinedOf todo) = false →
      testWordAlt urgencyP2 (combinedOf todo) = false →
      testWordAlt urgencyP3 (combinedOf todo) = false → tierScan (combinedOf todo) = .P2) := by
  refine ⟨rfl, ?_, ?_, ?_, ?_, ?_⟩ <;> intros <;> simp_all [tierScan]

/-- Witness for C6 on the candidate w6todo. -/
theorem tier_order_characterization_witness :
    testWordAlt urgencyP0 (combinedOf w6todo) = false ∧
    testWordAlt urgencyP1 (combinedOf w6todo) = true ∧
    tierScan (combinedOf w6todo) = .P1 :=
  ⟨by decide, by decide,
   (tier_order_characterization [] w6todo).2.2.1 (by decide) (by decide)⟩

/-- C9. A line that starts with an interrogative word (with a word
boundary, per the anchored regex) or ends with a question mark never has
actionable intent, and the concrete question line of the scenario yields
no candidate at all. -/
theorem questions_never_actionable :
    (∀ line : List Char, interrogStart line = true ∨ endsWithQM line = true →
      hasActionableIntent line = false) ∧
    extractTodosFromContent qLine = [] := by
  constructor
  · intro line h
    unfold hasActionableIntent
    rcases h with h | h <;> simp [h]
  · decide

/-- Witness for C9 at the scenario line. -/
theorem questions_never_actionable_witness :
    interrogStart qLine = true ∧ hasActionableIntent qLine = false :=
  ⟨by decide, questions_never_actionable.1 qLine (Or.inl (by decide))⟩

/-- C10. When the candidate title has no whitespace token longer than
three characters, findRelatedTasks returns the empty list for every
task store: the division-by-zero match ratio never marks a task
related. -/
theorem no_long_tokens_no_related (title : List Char)
    (h : ∀ w ∈ splitWsTokens (title.map Char.toLower), w.length ≤ 3) :
    ∀ tasks : List TaskRec, findRelatedTasks title tasks = [] := by
  intro tasks
  have htw : titleWords title = [] := by
    unfold titleWords
    rw [List.filter_eq_nil_iff]
    intro a ha
    simp only [decide_eq_true_eq, not_lt]
    exact h a ha
  have hrl : relatedList (titleWords title) tasks = [] := by
    rw [htw]
    unfold relatedList
    rw [List.filterMap_eq_nil_iff]
    intro t _
    have hnc : ¬ relatedCond [] t.title := by
      unfold relatedCond matchCount
      norm_num
    rw [if_neg hnc]
  unfold findRelatedTasks
  rw [hrl]
  simp

/-- Witness for C10: a title whose tokens are all short, one task. -/
theorem no_long_tokens_no_related_witness :
    (∀ w ∈ splitWsTokens ("a bb ccc dd".data.map Char.toLower), w.length ≤ 3) ∧
    findRelatedTasks "a bb ccc dd".data
      [{ id := "T1".data, title := "aaaa bbbb".data, status := "todo".data }] = [] :=
  ⟨by decide,
   no_long_tokens_no_related "a bb ccc dd".data (by decide)
     [{ id := "T1".data, title := "aaaa bbbb".data, status := "todo".data }]⟩

/-- C1. Evaluation of the code at the scenario note text, for any
keyword table: exactly one candidate is extracted and its generated
title strips the leading obligation phrase, with priority P0 from the
urgent marker; but the isExplicitTodo flag of the candidate is false and
its confidence is 30, because the source tests the anchored checkbox
pattern against the whole trimmed line, which starts with a dash, so the
test can never succeed on a checklist line and the +40 checklist bonus
is never granted. -/
theorem c1_checkbox_flag_eval (kw : List (List Char × Priority)) :
    extractTodosFromContent c1text = [c1todo] ∧
    c1todo.isExplicitTodo = false ∧
    (analyzeIntent kw c1todo).priority = Priority.P0 ∧
    (analyzeIntent kw c1todo).confidence = 30 ∧
    generateTitle c1todo.raw = "Fix login bug - urgent!".data := by
  refine ⟨by decide, by decide, ?_, ?_, by decide⟩
  · have h : (analyzeIntent kw c1todo).priority
        = keywordPass kw ((combinedOf c1todo).map Char.toLower) (tierScan (combinedOf c1todo)) := rfl
    have h0 : tierScan (combinedOf c1todo) = Priority.P0 := by decide
    rw [h, h0]
    exact keywordPass_fix _ _
  · have h : (analyzeIntent kw c1todo).confidence = (analyzeIntent [] c1todo).confidence := rfl
    rw [h]
    decide

/-- C8. findRelatedTasks returns at most three entries, sorted by match
ratio descending, and an existing task is marked related exactly when
the relatedness condition holds: at least two of the candidate tokens
occur in its lowercased title, or the match ratio exceeds one half. -/
theorem findRelatedTasks_spec (title : List Char) (tasks : List TaskRec) :
    (findRelatedTasks title tasks).length ≤ 3 ∧
    (findRelatedTasks title tasks).Chain' (fun a b => b.similarity ≤ a.similarity) ∧
    (∀ t ∈ tasks, relatedCond (titleWords title) t.title ↔
      ({ id := t.id, title := t.title, status := t.status,
         similarity := (matchCount (titleWords title) t.title : ℚ) /
           ((titleWords title).length : ℚ) } : RelatedEntry)
        ∈ relatedList (titleWords title) tasks) := by
  refine ⟨?_, ?_, ?_⟩
  · unfold findRelatedTasks
    rw [List.length_take]
    exact min_le_left _ _
  · have hs : List.Pairwise (fun a b => simGE a b = true)
        ((relatedList (titleWords title) tasks).mergeSort simGE) := by
      apply List.sorted_mergeSort
      · intro a b c hab hbc
        simp only [simGE, decide_eq_true_eq] at *
        exact le_trans hbc hab
      · intro a b
        simp only [simGE, Bool.or_eq_true, decide_eq_true_eq]
        exact le_total b.similarity a.similarity
    have ht : List.Pairwise (fun a b => simGE a b = true) (findRelatedTasks title tasks) :=
      List.Pairwise.sublist (List.take_sublist 3 _) hs
    refine List.Pairwise.chain' (ht.imp ?_)
    intro a b hab
    simpa [simGE] using hab
  · intro t ht
    constructor
    · intro hc
      exact List.mem_filterMap.2 ⟨t, ht, if_pos hc⟩
    · intro hm
      rcases List.mem_filterMap.1 hm with ⟨t2, _, he⟩
      by_cases h2 : relatedCond (titleWords title) t2.title
      · rw [if_pos h2] at he
        have he2 := Option.some.inj he
        have htt : t2.title = t.title := congrArg RelatedEntry.title he2
        rwa [htt] at h2
      · rw [if_neg h2] at he
        exact absurd he (by simp)

/-- Witness for C8: the relatedness condition holds for w8task and the
theorem places its entry in the related list. -/
theorem findRelatedTasks_spec_witness :
    relatedCond (titleWords w8title) w8task.title ∧
    ({ id := w8task.id, title := w8task.title, status := w8task.status,
       similarity := (matchCount (titleWords w8title) w8task.title : ℚ) /
         ((titleWords w8title).length : ℚ) } : RelatedEntry)
      ∈ relatedList (titleWords w8title) [w8task] ∧
    (findRelatedTasks w8title [w8task]).length ≤ 3 :=
  ⟨by decide,
   ((findRelatedTasks_spec w8title [w8task]).2.2 w8task (by decide)).1 (by decide),
   (findRelatedTasks_spec w8title [w8task]).1⟩

/-- Counterexample for C7: on the raw text of c7todo the analyzer emits
the bracket tag before the hashtag although the hashtag appears first in
the text, so the produced tags are not in order of appearance. -/
theorem tags_order_counterexample :
    (analyzeIntent [] c7todo).tags = ["bb".data, "aa".data] ∧
    specTagsInOrder c7todo.raw = ["aa".data, "bb".data] ∧
    (analyzeIntent [] c7todo).tags ≠ specTagsInOrder c7todo.raw := by
  exact ⟨by decide, by decide, by decide⟩

/-- C7 as amended: the tags are exactly the bracket groups of the raw
candidate text in order of appearance followed by the hashtags of the
raw text in order of appearance, each lowercased with duplicates
preserved, and the context never contributes: the tags are unchanged
under any replacement of the context and of the keyword table. -/
theorem tags_kind_order (kw kw2 : List (List Char × Priority)) (todo : Todo)
    (ctx2 : List (List Char)) :
    (analyzeIntent kw todo).tags
      = (bracketGroups todo.raw).map (List.map Char.toLower) ++
        (hashWords todo.raw).map (List.map Char.toLower) ∧
    (analyzeIntent kw todo).tags
      = (analyzeIntent kw2 { todo with context := ctx2 }).tags :=
  ⟨rfl, rfl⟩

/-- Characters with equal code points are equal. -/
theorem char_toNat_inj {c d : Char} (h : c.toNat = d.toNat) : c = d :=
  Char.eq_of_val_eq (UInt32.ext h)

/-- Code point of Char.toUpper: ASCII lowercase letters shift down by
32, everything else is fixed. -/
theorem toUpper_toNat (c : Char) :
    (Char.toUpper c).toNat
      = if 97 ≤ c.toNat ∧ c.toNat ≤ 122 then c.toNat - 32 else c.toNat := by
  unfold Char.toUpper
  by_cases h : 97 ≤ c.toNat ∧ c.toNat ≤ 122
  · rw [if_pos ⟨h.1, h.2⟩, if_pos h]
    unfold Char.ofNat
    have hv : (c.toNat - 32).isValidChar := Or.inl (by omega)
    rw [dif_pos hv]
    rfl
  · rw [if_neg (fun hh => h ⟨hh.1, hh.2⟩), if_neg h]

/-- Comparison with a character that is neither an ASCII letter range
member nor an image of one is unaffected by toUpper. -/
theorem toUpper_beq (c d : Char) (h1 : d.toNat < 65 ∨ 90 < d.toNat)
    (h2 : d.toNat < 97 ∨ 122 < d.toNat) :
    (Char.toUpper c == d) = (c == d) := by
  by_cases hc : 97 ≤ c.toNat ∧ c.toNat ≤ 122
  · have hu : (Char.toUpper c).toNat = c.toNat - 32 := by rw [toUpper_toNat, if_pos hc]
    have e1 : (Char.toUpper c == d) = false := by
      rw [beq_eq_false_iff_ne]
      intro he
      rw [he] at hu
      omega
    have e2 : (c == d) = false := by
      rw [beq_eq_false_iff_ne]
      intro he
      rw [he] at hc
      omega
    rw [e1, e2]
  · have : Char.toUpper c = c := char_toNat_inj (by rw [toUpper_toNat, if_neg hc])
    rw [this]

/-- Char.toUpper is idempotent. -/
theorem toUpper_idem (c : Char) : Char.toUpper (Char.toUpper c) = Char.toUpper c := by
  by_cases hc : 97 ≤ c.toNat ∧ c.toNat ≤ 122
  · have h1 : (Char.toUpper c).toNat = c.toNat - 32 := by rw [toUpper_toNat, if_pos hc]
    apply char_toNat_inj
    rw [toUpper_toNat (Char.toUpper c), h1, if_neg (by omega)]
  · have : Char.toUpper c = c := char_toNat_inj (by rw [toUpper_toNat, if_neg hc])
    rw [this, this]

/-- Whitespace membership is unaffected by toUpper. -/
theorem isJsSpace_toUpper (c : Char) : isJsSpace (Char.toUpper c) = isJsSpace c := by
  by_cases hc : 97 ≤ c.toNat ∧ c.toNat ≤ 122
  · have h1 : (Char.toUpper c).toNat = c.toNat - 32 := by rw [toUpper_toNat, if_pos hc]
    have e1 : isJsSpace (Char.toUpper c) = false := by
      unfold isJsSpace
      rw [h1]
      simp only [Bool.or_eq_false_iff, beq_eq_false_iff_ne, ne_eq, Bool.and_eq_false_iff,
        decide_eq_false_iff_not, not_le]
      omega
    have e2 : isJsSpace c = false := by
      unfold isJsSpace
      simp only [Bool.or_eq_false_iff, beq_eq_false_iff_ne, ne_eq, Bool.and_eq_false_iff,
        decide_eq_false_iff_not, not_le]
      omega
    rw [e1, e2]
  · have : Char.toUpper c = c := char_toNat_inj (by rw [toUpper_toNat, if_neg hc])
    rw [this]

theorem sClean_cond {cond : Char → List Char → Bool} {c : Char} {rest : List Char}
    (h : sClean cond (c :: rest) = true) : cond c rest = true := by
  unfold sClean at h
  rw [Bool.and_eq_true] at h
  exact h.1

theorem sClean_tail {cond : Char → List Char → Bool} {c : Char} {rest : List Char}
    (h : sClean cond (c :: rest) = true) : sClean cond rest = true := by
  unfold sClean at h
  rw [Bool.and_eq_true] at h
  exact h.2

theorem sClean_drop {cond : Char → List Char → Bool} {l : List Char}
    (h : sClean cond l = true) (n : Nat) : sClean cond (l.drop n) = true := by
  induction l generalizing n with
  | nil => simpa using h
  | cons c rest ih =>
    match n with
    | 0 => exact h
    | m + 1 => exact ih (sClean_tail h) m

theorem sClean_dropWhile {cond : Char → List Char → Bool} {l : List Char}
    (p : Char → Bool) (h : sClean cond l = true) : sClean cond (l.dropWhile p) = true := by
  induction l with
  | nil => simpa using h
  | cons c rest ih =>
    rw [List.dropWhile_cons]
    by_cases hp : p c = true
    · rw [if_pos hp]
      exact ih (sClean_tail h)
    · rw [if_neg hp]
      exact h

theorem sClean_take {cond : Char → List Char → Bool} {l : List Char}
    (hmono : ∀ c rest n, cond c rest = true → cond c (rest.take n) = true)
    (h : sClean cond l = true) (n : Nat) : sClean cond (l.take n) = true := by
  induction l generalizing n with
  | nil => simpa using h
  | cons c rest ih =>
    match n with
    | 0 => rfl
    | m + 1 =>
      rw [List.take_succ_cons]
      unfold sClean
      rw [Bool.and_eq_true]
      exact ⟨hmono c rest m (sClean_cond h), ih (sClean_tail h) m⟩

theorem sClean_append {cond : Char → List Char → Bool} {l q : List Char}
    (hq : sClean cond q = true)
    (hcond : ∀ c rest, cond c rest = true → cond c (rest ++ q) = true)
    (h : sClean cond l = true) : sClean cond (l ++ q) = true := by
  induction l with
  | nil => simpa using hq
  | cons c rest ih =>
    rw [List.cons_append]
    unfold sClean
    rw [Bool.and_eq_true]
    exact ⟨hcond c rest (sClean_cond h), ih (sClean_tail h)⟩

theorem sClean_capitalize {cond : Char → List Char → Bool} {l : List Char}
    (hcap : ∀ c rest, cond c rest = true → cond (Char.toUpper c) rest = true)
    (h : sClean cond l = true) : sClean cond (capitalize l) = true := by
  match l with
  | [] => exact h
  | c :: rest =>
    unfold capitalize sClean
    rw [Bool.and_eq_true]
    exact ⟨hcap c rest (sClean_cond h), sClean_tail h⟩

theorem brCond_take (c : Char) (rest : List Char) (n : Nat)
    (h : brCond c rest = true) : brCond c (rest.take n) = true := by
  by_cases hc : (c == '[') = true
  · unfold brCond at h ⊢
    rw [if_pos hc] at h ⊢
    rw [Bool.or_eq_true, List.isEmpty_iff, List.isEmpty_iff] at h ⊢
    rcases h with h | h
    · cases rest with
      | nil => left; simp
      | cons d r2 =>
        cases n with
        | zero => left; simp
        | succ m =>
          rw [List.takeWhile_cons] at h
          by_cases hd : (!(d == ']')) = true
          · rw [if_pos hd] at h
            exact absurd h (by simp)
          · left
            rw [List.take_succ_cons, List.takeWhile_cons, if_neg hd]
    · right
      rw [List.dropWhile_eq_nil_iff] at h ⊢
      intro x hx
      exact h x (List.mem_of_mem_take hx)
  · unfold brCond at h ⊢
    rw [if_neg hc]

theorem brCond_dots (c : Char) (rest : List Char)
    (h : brCond c rest = true) : brCond c (rest ++ ['.', '.', '.']) = true := by
  by_cases hc : (c == '[') = true
  · unfold brCond at h ⊢
    rw [if_pos hc] at h ⊢
    rw [Bool.or_eq_true, List.isEmpty_iff, List.isEmpty_iff] at h ⊢
    rcases h with h | h
    · cases rest with
      | nil => right; decide
      | cons d r2 =>
        rw [List.takeWhile_cons] at h
        by_cases hd : (!(d == ']')) = true
        · rw [if_pos hd] at h
          exact absurd h (by simp)
        · left
          rw [List.cons_append, List.takeWhile_cons, if_neg hd]
    · right
      rw [List.dropWhile_eq_nil_iff] at h ⊢
      intro x hx
      rcases List.mem_append.mp hx with hx2 | hx2
      · exact h x hx2
      · have hx3 : x = '.' := by simpa using hx2
        rw [hx3]
        decide
  · unfold brCond at h ⊢
    rw [if_neg hc]

theorem brCond_cap (c : Char) (rest : List Char)
    (h : brCond c rest = true) : brCond (Char.toUpper c) rest = true := by
  unfold brCond at h ⊢
  rw [toUpper_beq c '[' (by decide) (by decide)]
  exact h

theorem hashCond_take (c : Char) (rest : List Char) (n : Nat)
    (h : hashCond c rest = true) : hashCond c (rest.take n) = true := by
  by_cases hc : (c == '#') = true
  · unfold hashCond at h ⊢
    rw [if_pos hc] at h ⊢
    cases rest with
    | nil => simp [headOrNonWord]
    | cons d r2 =>
      cases n with
      | zero => simp [headOrNonWord]
      | succ m =>
        rw [List.take_succ_cons]
        exact h
  · unfold hashCond at h ⊢
    rw [if_neg hc]

theorem hashCond_dots (c : Char) (rest : List Char)
    (h : hashCond c rest = true) : hashCond c (rest ++ ['.', '.', '.']) = true := by
  by_cases hc : (c == '#') = true
  · unfold hashCond at h ⊢
    rw [if_pos hc] at h ⊢
    cases rest with
    | nil => decide
    | cons d r2 => exact h
  · unfold hashCond at h ⊢
    rw [if_neg hc]

theorem hashCond_cap (c : Char) (rest : List Char)
    (h : hashCond c rest = true) : hashCond (Char.toUpper c) rest = true := by
  unfold hashCond at h ⊢
  rw [toUpper_beq c '#' (by decide) (by decide)]
  exact h

theorem colCond_take (c : Char) (rest : List Char) (n : Nat)
    (h : colCond c rest = true) : colCond c (rest.take n) = true := by
  by_cases hc : isJsSpace c = true
  · unfold colCond at h ⊢
    rw [if_pos hc] at h ⊢
    rw [Bool.and_eq_true] at h ⊢
    refine ⟨h.1, ?_⟩
    cases rest with
    | nil => simp [headNonSpace]
    | cons d r2 =>
      cases n with
      | zero => simp [headNonSpace]
      | succ m =>
        rw [List.take_succ_cons]
        exact h.2
  · unfold colCond at h ⊢
    rw [if_neg hc]

theorem colCond_dots (c : Char) (rest : List Char)
    (h : colCond c rest = true) : colCond c (rest ++ ['.', '.', '.']) = true := by
  by_cases hc : isJsSpace c = true
  · unfold colCond at h ⊢
    rw [if_pos hc] at h ⊢
    rw [Bool.and_eq_true] at h ⊢
    refine ⟨h.1, ?_⟩
    cases rest with
    | nil => decide
    | cons d r2 => exact h.2
  · unfold colCond at h ⊢
    rw [if_neg hc]

theorem colCond_cap (c : Char) (rest : List Char)
    (h : colCond c rest = true) : colCond (Char.toUpper c) rest = true := by
  unfold colCond at h ⊢
  rw [isJsSpace_toUpper, toUpper_beq c ' ' (by decide) (by decide)]
  exact h

theorem remHashGo_cons (flag : Bool) (c : Char) (rest : List Char) :
    remHashGo flag (c :: rest) =
      if flag && isWordChar c then remHashGo true rest
      else if c == '#' && headWord rest then remHashGo true rest
      else c :: remHashGo false rest := rfl

theorem noRbr_clean {z : List Char} (h : ∀ d ∈ z, (d == ']') = false) :
    sClean brCond z = true := by
  induction z with
  | nil => rfl
  | cons d zs ih =>
    unfold sClean
    rw [Bool.and_eq_true]
    refine ⟨?_, ih (fun e he => h e (List.mem_cons_of_mem d he))⟩
    unfold brCond
    by_cases hd : (d == '[') = true
    · rw [if_pos hd, Bool.or_eq_true, List.isEmpty_iff, List.isEmpty_iff]
      right
      rw [List.dropWhile_eq_nil_iff]
      intro x hx
      simp [h x (List.mem_cons_of_mem d hx)]
    · rw [if_neg hd]

theorem remBrGo_clean : ∀ (l : List Char) (pending : Option (List Char)),
    (∀ rev, pending = some rev → ∀ d ∈ rev, (d == ']') = false) →
    sClean brCond (remBrGo pending l) = true := by
  intro l
  induction l with
  | nil =>
    intro pending hp
    match pending with
    | none => rfl
    | some rev =>
      show sClean brCond ('[' :: rev.reverse) = true
      apply noRbr_clean
      intro d hd
      rcases List.mem_cons.mp hd with hd | hd
      · rw [hd]; rfl
      · exact hp rev rfl d (List.mem_reverse.mp hd)
  | cons c cs ih =>
    intro pending hp
    match pending with
    | none =>
      show sClean brCond (if c == '[' then remBrGo (some []) cs else c :: remBrGo none cs) = true
      by_cases hc : (c == '[') = true
      · rw [if_pos hc]
        exact ih (some []) (by intro rev hrev d hd; cases hrev; simp at hd)
      · rw [if_neg hc]
        unfold sClean
        rw [Bool.and_eq_true]
        refine ⟨?_, ih none (by intro rev hrev; cases hrev)⟩
        unfold brCond
        rw [if_neg hc]
    | some rev =>
      show sClean brCond (if c == ']' then
          (if rev.isEmpty then '[' :: ']' :: remBrGo none cs else remBrGo none cs)
        else remBrGo (some (c :: rev)) cs) = true
      by_cases hc : (c == ']') = true
      · rw [if_pos hc]
        by_cases hrev : rev.isEmpty = true
        · rw [if_pos hrev]
          unfold sClean
          rw [Bool.and_eq_true]
          constructor
          · unfold brCond
            rw [if_pos (by rfl), Bool.or_eq_true, List.isEmpty_iff, List.isEmpty_iff]
            left
            rw [List.takeWhile_cons]
            simp
          · unfold sClean
            rw [Bool.and_eq_true]
            refine ⟨by unfold brCond; simp, ih none (by intro rev2 hrev2; cases hrev2)⟩
        · rw [if_neg hrev]
          exact ih none (by intro rev2 hrev2; cases hrev2)
      · rw [if_neg hc]
        apply ih (some (c :: rev))
        intro rev2 hrev2 d hd
        cases hrev2
        rcases List.mem_cons.mp hd with hd | hd
        · rw [hd]; simpa using hc
        · exact hp rev rfl d hd

theorem removeBrackets_clean (l : List Char) : sClean brCond (removeBrackets l) = true :=
  remBrGo_clean l none (by intro rev hrev; cases hrev)

theorem mem_remHashGo : ∀ (l : List Char) (flag : Bool) (d : Char),
    d ∈ remHashGo flag l → d ∈ l := by
  intro l
  induction l with
  | nil =>
    intro flag d hd
    simp [remHashGo] at hd
  | cons c cs ih =>
    intro flag d hd
    unfold remHashGo at hd
    by_cases h1 : (flag && isWordChar c) = true
    · rw [if_pos h1] at hd
      exact List.mem_cons_of_mem c (ih true d hd)
    · rw [if_neg h1] at hd
      by_cases h2 : (c == '#' && headWord cs) = true
      · rw [if_pos h2] at hd
        exact List.mem_cons_of_mem c (ih true d hd)
      · rw [if_neg h2] at hd
        rcases List.mem_cons.mp hd with hd | hd
        · rw [hd]; exact List.mem_cons_self c cs
        · exact List.mem_cons_of_mem c (ih false d hd)

theorem remHashGo_brClean : ∀ (l : List Char) (flag : Bool),
    sClean brCond l = true → sClean brCond (remHashGo flag l) = true := by
  intro l
  induction l with
  | nil => intro flag _; rfl
  | cons c cs ih =>
    intro flag h
    unfold remHashGo
    by_cases h1 : (flag && isWordChar c) = true
    · rw [if_pos h1]
      exact ih true (sClean_tail h)
    · rw [if_neg h1]
      by_cases h2 : (c == '#' && headWord cs) = true
      · rw [if_pos h2]
        exact ih true (sClean_tail h)
      · rw [if_neg h2]
        unfold sClean
        rw [Bool.and_eq_true]
        refine ⟨?_, ih false (sClean_tail h)⟩
        have hcond := sClean_cond h
        unfold brCond at hcond ⊢
        by_cases hc : (c == '[') = true
        · rw [if_pos hc] at hcond ⊢
          rw [Bool.or_eq_true, List.isEmpty_iff, List.isEmpty_iff] at hcond ⊢
          rcases hcond with hcond | hcond
          · cases cs with
            | nil => left; rfl
            | cons d r2 =>
              rw [List.takeWhile_cons] at hcond
              by_cases hd : (!(d == ']')) = true
              · rw [if_pos hd] at hcond
                exact absurd hcond (by simp)
              · have hdr : (d == ']') = true := by simpa using hd
                left
                have hdh : (d == '#') = false := by
                  rw [beq_iff_eq] at hdr
                  rw [hdr]
                  decide
                have : remHashGo false (d :: r2) = d :: remHashGo false r2 := by
                  rw [remHashGo_cons, if_neg (by simp), if_neg (by simp [hdh])]
                rw [this, List.takeWhile_cons, if_neg hd]
          · right
            rw [List.dropWhile_eq_nil_iff] at hcond ⊢
            intro x hx
            exact hcond x (mem_remHashGo cs false x hx)
        · rw [if_neg hc] at hcond ⊢

theorem headNW_remHashGo : ∀ l : List Char, headOrNonWord (remHashGo true l) = true := by
  intro l
  induction l with
  | nil => rfl
  | cons c cs ih =>
    unfold remHashGo
    by_cases h1 : (true && isWordChar c) = true
    · rw [if_pos h1]
      exact ih
    · rw [if_neg h1]
      by_cases h2 : (c == '#' && headWord cs) = true
      · rw [if_pos h2]
        exact ih
      · rw [if_neg h2]
        unfold headOrNonWord
        simpa using h1

theorem remHashGo_hashClean : ∀ (l : List Char) (flag : Bool),
    sClean hashCond (remHashGo flag l) = true := by
  intro l
  induction l with
  | nil => intro flag; rfl
  | cons c cs ih =>
    intro flag
    unfold remHashGo
    by_cases h1 : (flag && isWordChar c) = true
    · rw [if_pos h1]
      exact ih true
    · rw [if_neg h1]
      by_cases h2 : (c == '#' && headWord cs) = true
      · rw [if_pos h2]
        exact ih true
      · rw [if_neg h2]
        unfold sClean
        rw [Bool.and_eq_true]
        refine ⟨?_, ih false⟩
        unfold hashCond
        by_cases hc : (c == '#') = true
        · rw [if_pos hc]
          simp only [Bool.and_eq_true, not_and] at h2
          have h4 : headWord cs = false := by
            rcases Bool.eq_false_or_eq_true (headWord cs) with h4 | h4
            · exact absurd h4 (h2 hc)
            · exact h4
          cases cs with
          | nil => rfl
          | cons d r2 =>
            have hdw : isWordChar d = false := h4
            show headOrNonWord (remHashGo false (d :: r2)) = true
            rw [remHashGo_cons, if_neg (by simp [hdw])]
            by_cases h3 : (d == '#' && headWord r2) = true
            · rw [if_pos h3]
              exact headNW_remHashGo r2
            · rw [if_neg h3]
              simp [headOrNonWord, hdw]
        · rw [if_neg hc]

theorem collapseGo_cons (flag : Bool) (c : Char) (rest : List Char) :
    collapseGo flag (c :: rest) =
      if isJsSpace c then
        (if flag then collapseGo true rest else ' ' :: collapseGo true rest)
      else c :: collapseGo false rest := rfl

theorem remBrGo_none_cons (c : Char) (rest : List Char) :
    remBrGo none (c :: rest) =
      if c == '[' then remBrGo (some []) rest else c :: remBrGo none rest := rfl

theorem remBrGo_some_cons (rev : List Char) (c : Char) (rest : List Char) :
    remBrGo (some rev) (c :: rest) =
      if c == ']' then
        (if rev.isEmpty then '[' :: ']' :: remBrGo none rest else remBrGo none rest)
      else remBrGo (some (c :: rev)) rest := rfl

theorem stripCheckbox_cons (a b c2 : Char) (rest : List Char) :
    stripCheckbox (a :: b :: c2 :: rest) =
      if a == '[' && (b == ' ' || b == 'x') && c2 == ']' then rest.dropWhile isJsSpace
      else a :: b :: c2 :: rest := rfl

theorem headNS_collapseGo : ∀ l : List Char, headNonSpace (collapseGo true l) = true := by
  intro l
  induction l with
  | nil => rfl
  | cons c cs ih =>
    rw [collapseGo_cons]
    by_cases hs : isJsSpace c = true
    · rw [if_pos hs, if_pos rfl]
      exact ih
    · rw [if_neg hs]
      unfold headNonSpace
      simpa using hs

theorem mem_collapseGo : ∀ (l : List Char) (flag : Bool) (d : Char),
    d ∈ collapseGo flag l → d = ' ' ∨ d ∈ l := by
  intro l
  induction l with
  | nil => intro flag d hd; simp [collapseGo] at hd
  | cons c cs ih =>
    intro flag d hd
    rw [collapseGo_cons] at hd
    by_cases hs : isJsSpace c = true
    · rw [if_pos hs] at hd
      by_cases hf : flag = true
      · rw [if_pos hf] at hd
        rcases ih true d hd with h | h
        · exact Or.inl h
        · exact Or.inr (List.mem_cons_of_mem c h)
      · rw [if_neg hf] at hd
        rcases List.mem_cons.mp hd with hd | hd
        · exact Or.inl hd
        · rcases ih true d hd with h | h
          · exact Or.inl h
          · exact Or.inr (List.mem_cons_of_mem c h)
    · rw [if_neg hs] at hd
      rcases List.mem_cons.mp hd with hd | hd
      · exact Or.inr (by rw [hd]; exact List.mem_cons_self c cs)
      · rcases ih false d hd with h | h
        · exact Or.inl h
        · exact Or.inr (List.mem_cons_of_mem c h)

theorem collapseGo_colClean : ∀ (l : List Char) (flag : Bool),
    sClean colCond (collapseGo flag l) = true := by
  intro l
  induction l with
  | nil => intro flag; rfl
  | cons c cs ih =>
    intro flag
    rw [collapseGo_cons]
    by_cases hs : isJsSpace c = true
    · rw [if_pos hs]
      by_cases hf : flag = true
      · rw [if_pos hf]
        exact ih true
      · rw [if_neg hf]
        unfold sClean
        rw [Bool.and_eq_true]
        refine ⟨?_, ih true⟩
        unfold colCond
        rw [if_pos (by decide)]
        rw [Bool.and_eq_true]
        exact ⟨by decide, headNS_collapseGo cs⟩
    · rw [if_neg hs]
      unfold sClean
      rw [Bool.and_eq_true]
      refine ⟨?_, ih false⟩
      unfold colCond
      rw [if_neg hs]

theorem collapseGo_brClean : ∀ (l : List Char) (flag : Bool),
    sClean brCond l = true → sClean brCond (collapseGo flag l) = true := by
  intro l
  induction l with
  | nil => intro flag _; rfl
  | cons c cs ih =>
    intro flag h
    rw [collapseGo_cons]
    by_cases hs : isJsSpace c = true
    · rw [if_pos hs]
      by_cases hf : flag = true
      · rw [if_pos hf]
        exact ih true (sClean_tail h)
      · rw [if_neg hf]
        unfold sClean
        rw [Bool.and_eq_true]
        refine ⟨by unfold brCond; rw [if_neg (by decide)], ih true (sClean_tail h)⟩
    · rw [if_neg hs]
      unfold sClean
      rw [Bool.and_eq_true]
      refine ⟨?_, ih false (sClean_tail h)⟩
      have hcond := sClean_cond h
      unfold brCond at hcond ⊢
      by_cases hc : (c == '[') = true
      · rw [if_pos hc] at hcond ⊢
        rw [Bool.or_eq_true, List.isEmpty_iff, List.isEmpty_iff] at hcond ⊢
        rcases hcond with hcond | hcond
        · cases cs with
          | nil => left; rfl
          | cons d r2 =>
            rw [List.takeWhile_cons] at hcond
            by_cases hd : (!(d == ']')) = true
            · rw [if_pos hd] at hcond
              exact absurd hcond (by simp)
            · have hdr : (d == ']') = true := by simpa using hd
              have hdns : isJsSpace d = false := by
                rw [beq_iff_eq] at hdr
                rw [hdr]
                decide
              left
              rw [collapseGo_cons, if_neg (by rw [hdns]; exact Bool.false_ne_true)]
              rw [List.takeWhile_cons, if_neg hd]
        · right
          rw [List.dropWhile_eq_nil_iff] at hcond ⊢
          intro x hx
          rcases mem_collapseGo cs false x hx with hx2 | hx2
          · rw [hx2]; decide
          · exact hcond x hx2
      · rw [if_neg hc] at hcond ⊢

theorem collapseGo_hashClean : ∀ (l : List Char) (flag : Bool),
    sClean hashCond l = true → sClean hashCond (collapseGo flag l) = true := by
  intro l
  induction l with
  | nil => intro flag _; rfl
  | cons c cs ih =>
    intro flag h
    rw [collapseGo_cons]
    by_cases hs : isJsSpace c = true
    · rw [if_pos hs]
      by_cases hf : flag = true
      · rw [if_pos hf]
        exact ih true (sClean_tail h)
      · rw [if_neg hf]
        unfold sClean
        rw [Bool.and_eq_true]
        refine ⟨by unfold hashCond; rw [if_neg (by decide)], ih true (sClean_tail h)⟩
    · rw [if_neg hs]
      unfold sClean
      rw [Bool.and_eq_true]
      refine ⟨?_, ih false (sClean_tail h)⟩
      have hcond := sClean_cond h
      unfold hashCond at hcond ⊢
      by_cases hc : (c == '#') = true
      · rw [if_pos hc] at hcond ⊢
        cases cs with
        | nil => rfl
        | cons d r2 =>
          have hdw : isWordChar d = false := by
            unfold headOrNonWord at hcond
            simpa using hcond
          rw [collapseGo_cons]
          by_cases hds : isJsSpace d = true
          · rw [if_pos hds, if_neg Bool.false_ne_true]
            exact (by decide : (!isWordChar ' ') = true)
          · rw [if_neg hds]
            exact (by rw [hdw]; rfl : (!isWordChar d) = true)
      · rw [if_neg hc] at hcond ⊢

theorem remBr_unclosed : ∀ (l acc : List Char), (∀ d ∈ l, (d == ']') = false) →
    remBrGo (some acc) l = '[' :: acc.reverse ++ l := by
  intro l
  induction l with
  | nil =>
    intro acc _
    show '[' :: acc.reverse = '[' :: acc.reverse ++ []
    rw [List.append_nil]
  | cons c cs ih =>
    intro acc h
    have hc : (c == ']') = false := h c (List.mem_cons_self c cs)
    rw [remBrGo_some_cons, if_neg (by rw [hc]; exact Bool.false_ne_true)]
    rw [ih (c :: acc) (fun d hd => h d (List.mem_cons_of_mem c hd))]
    simp

theorem remBr_id (l : List Char) (h : sClean brCond l = true) : remBrGo none l = l := by
  have main : ∀ (n : Nat) (l2 : List Char), l2.length ≤ n → sClean brCond l2 = true →
      remBrGo none l2 = l2 := by
    intro n
    induction n with
    | zero =>
      intro l2 hl h2
      cases l2 with
      | nil => rfl
      | cons c cs => simp at hl
    | succ m ih =>
      intro l2 hl h2
      cases l2 with
      | nil => rfl
      | cons c cs =>
        have hcs : cs.length ≤ m := by
          simp only [List.length_cons] at hl
          omega
        rw [remBrGo_none_cons]
        by_cases hc : (c == '[') = true
        · rw [if_pos hc]
          have hceq : c = '[' := by rwa [beq_iff_eq] at hc
          have hcond := sClean_cond h2
          unfold brCond at hcond
          rw [if_pos hc, Bool.or_eq_true, List.isEmpty_iff, List.isEmpty_iff] at hcond
          rcases hcond with hcond | hcond
          · cases cs with
            | nil =>
              rw [hceq]
              rfl
            | cons d r2 =>
              rw [List.takeWhile_cons] at hcond
              by_cases hd : (!(d == ']')) = true
              · rw [if_pos hd] at hcond
                exact absurd hcond (by simp)
              · have hdeq : d = ']' := by
                  have : (d == ']') = true := by simpa using hd
                  rwa [beq_iff_eq] at this
                subst hdeq
                rw [remBrGo_some_cons,
                  if_pos (show ((']' : Char) == ']') = true from rfl),
                  if_pos (show ([] : List Char).isEmpty = true from rfl)]
                have hr2 : r2.length ≤ m := by
                  simp only [List.length_cons] at hl
                  omega
                rw [ih r2 hr2 (sClean_tail (sClean_tail h2)), hceq]
          · rw [remBr_unclosed cs [] (by
              rw [List.dropWhile_eq_nil_iff] at hcond
              intro d hd
              have := hcond d hd
              simpa using this)]
            rw [hceq]
            rfl
        · rw [if_neg hc]
          rw [ih cs hcs (sClean_tail h2)]
  exact main l.length l (le_refl _) h

theorem remHash_id (l : List Char) (h : sClean hashCond l = true) : remHashGo false l = l := by
  induction l with
  | nil => rfl
  | cons c cs ih =>
    rw [remHashGo_cons, if_neg (by simp)]
    by_cases hc : (c == '#') = true
    · have hcond := sClean_cond h
      unfold hashCond at hcond
      rw [if_pos hc] at hcond
      have hw : headWord cs = false := by
        cases cs with
        | nil => rfl
        | cons d r2 =>
          unfold headOrNonWord at hcond
          unfold headWord
          simpa using hcond
      rw [if_neg (by rw [hw]; simp)]
      rw [ih (sClean_tail h)]
    · rw [if_neg (by rw [Bool.and_eq_true]; intro hx; exact hc hx.1)]
      rw [ih (sClean_tail h)]

theorem collapseGo_true_of_headNS (l : List Char) (h : headNonSpace l = true) :
    collapseGo true l = collapseGo false l := by
  cases l with
  | nil => rfl
  | cons d r2 =>
    have hd : isJsSpace d = false := by
      unfold headNonSpace at h
      simpa using h
    rw [collapseGo_cons, collapseGo_cons, if_neg (by rw [hd]; simp), if_neg (by rw [hd]; simp)]

theorem col_id (l : List Char) (h : sClean colCond l = true) : collapseGo false l = l := by
  induction l with
  | nil => rfl
  | cons c cs ih =>
    rw [collapseGo_cons]
    by_cases hs : isJsSpace c = true
    · rw [if_pos hs, if_neg Bool.false_ne_true]
      have hcond := sClean_cond h
      unfold colCond at hcond
      rw [if_pos hs, Bool.and_eq_true] at hcond
      have hceq : c = ' ' := by
        have h1 := hcond.1
        rwa [beq_iff_eq] at h1
      rw [collapseGo_true_of_headNS cs hcond.2, ih (sClean_tail h), hceq]
    · rw [if_neg hs, ih (sClean_tail h)]

theorem stripCheckbox_id (l : List Char) (h : sClean brCond l = true) : stripCheckbox l = l := by
  match l with
  | [] => rfl
  | [a] => rfl
  | [a, b] => rfl
  | a :: b :: c2 :: rest =>
    rw [stripCheckbox_cons]
    by_cases hcond : (a == '[' && (b == ' ' || b == 'x') && c2 == ']') = true
    · exfalso
      simp only [Bool.and_eq_true, Bool.or_eq_true, beq_iff_eq] at hcond
      obtain ⟨⟨ha, hb⟩, hc2⟩ := hcond
      subst ha
      subst hc2
      have hbr := sClean_cond h
      unfold brCond at hbr
      rw [if_pos (by rfl), Bool.or_eq_true, List.isEmpty_iff, List.isEmpty_iff] at hbr
      have hbne : (b == ']') = false := by
        rcases hb with hb | hb <;> (subst hb; rfl)
      rcases hbr with hbr | hbr
      · rw [List.takeWhile_cons, if_pos (by rw [hbne]; rfl)] at hbr
        exact absurd hbr (by simp)
      · rw [List.dropWhile_cons, if_pos (by rw [hbne]; rfl)] at hbr
        rw [List.dropWhile_cons, if_neg (by simp)] at hbr
        exact absurd hbr (by simp)
    · rw [if_neg hcond]

theorem drop_len_takeWhile (p : Char → Bool) : ∀ l : List Char,
    l.drop ((l.takeWhile p).length) = l.dropWhile p := by
  intro l
  induction l with
  | nil => rfl
  | cons c cs ih =>
    rw [List.takeWhile_cons, List.dropWhile_cons]
    by_cases hc : p c = true
    · rw [if_pos hc, if_pos hc, List.length_cons, List.drop_succ_cons]
      exact ih
    · rw [if_neg hc, if_neg hc]
      rfl

theorem jsTrim_as_take (l : List Char) :
    ∃ n, jsTrim l = (l.dropWhile isJsSpace).take n := by
  refine ⟨(l.dropWhile isJsSpace).length -
    ((l.dropWhile isJsSpace).reverse.takeWhile isJsSpace).length, ?_⟩
  unfold jsTrim
  rw [← drop_len_takeWhile isJsSpace (l.dropWhile isJsSpace).reverse]
  rw [List.drop_reverse, List.reverse_reverse]

theorem stripObligation_sClean {cond : Char → List Char → Bool} {l : List Char}
    (h : sClean cond l = true) : sClean cond (stripObligation l) = true := by
  unfold stripObligation
  cases obligationAlts.find?
      (fun w => lowerPre w l &&
        (match l.drop w.length with | c :: _ => isJsSpace c | [] => false)) with
  | none => exact h
  | some w => exact sClean_dropWhile _ (sClean_drop h _)

theorem jsTrim_sClean {cond : Char → List Char → Bool}
    (hmono : ∀ c rest n, cond c rest = true → cond c (rest.take n) = true)
    {l : List Char} (h : sClean cond l = true) : sClean cond (jsTrim l) = true := by
  obtain ⟨n, hn⟩ := jsTrim_as_take l
  rw [hn]
  exact sClean_take hmono (sClean_dropWhile _ h) n

theorem truncate_sClean {cond : Char → List Char → Bool}
    (hq : sClean cond ['.', '.', '.'] = true)
    (hmono : ∀ c rest n, cond c rest = true → cond c (rest.take n) = true)
    (hdots : ∀ c rest, cond c rest = true → cond c (rest ++ ['.', '.', '.']) = true)
    {l : List Char} (h : sClean cond l = true) : sClean cond (truncate80 l) = true := by
  unfold truncate80
  by_cases hl : l.length > 80
  · rw [if_pos hl]
    exact sClean_append hq hdots (sClean_take hmono h 77)
  · rw [if_neg hl]
    exact h

theorem brClean_generateTitle (x : List Char) :
    sClean brCond (generateTitle x) = true := by
  unfold generateTitle collapseWs removeHashtags removeBrackets
  apply truncate_sClean (by decide) brCond_take brCond_dots
  apply sClean_capitalize brCond_cap
  apply jsTrim_sClean brCond_take
  apply collapseGo_brClean _ false
  apply stripObligation_sClean
  apply remHashGo_brClean _ false
  exact remBrGo_clean _ none (by intro rev hrev; cases hrev)

theorem hashClean_generateTitle (x : List Char) :
    sClean hashCond (generateTitle x) = true := by
  unfold generateTitle collapseWs removeHashtags
  apply truncate_sClean (by decide) hashCond_take hashCond_dots
  apply sClean_capitalize hashCond_cap
  apply jsTrim_sClean hashCond_take
  apply collapseGo_hashClean _ false
  apply stripObligation_sClean
  exact remHashGo_hashClean _ false

theorem colClean_generateTitle (x : List Char) :
    sClean colCond (generateTitle x) = true := by
  unfold generateTitle collapseWs
  apply truncate_sClean (by decide) colCond_take colCond_dots
  apply sClean_capitalize colCond_cap
  apply jsTrim_sClean colCond_take
  exact collapseGo_colClean _ false

theorem headNS_dropWhile (l : List Char) : headNonSpace (l.dropWhile isJsSpace) = true := by
  induction l with
  | nil => rfl
  | cons c cs ih =>
    rw [List.dropWhile_cons]
    by_cases hc : isJsSpace c = true
    · rw [if_pos hc]
      exact ih
    · rw [if_neg hc]
      unfold headNonSpace
      simpa using hc

theorem dropWhile_id_of_headNS (l : List Char) (h : headNonSpace l = true) :
    l.dropWhile isJsSpace = l := by
  cases l with
  | nil => rfl
  | cons c cs =>
    rw [List.dropWhile_cons, if_neg ?_]
    unfold headNonSpace at h
    simpa using h

theorem headNS_take (l : List Char) (n : Nat) (h : headNonSpace l = true) :
    headNonSpace (l.take n) = true := by
  cases l with
  | nil => simp [headNonSpace]
  | cons c cs =>
    cases n with
    | zero => rfl
    | succ m =>
      rw [List.take_succ_cons]
      exact h

theorem headNS_append_left (z w : List Char) (hz : z ≠ []) :
    headNonSpace (z ++ w) = headNonSpace z := by
  cases z with
  | nil => exact absurd rfl hz
  | cons c cs => rfl

theorem headNS_capitalize (l : List Char) : headNonSpace (capitalize l) = headNonSpace l := by
  cases l with
  | nil => rfl
  | cons c cs =>
    show (!isJsSpace (Char.toUpper c)) = (!isJsSpace c)
    rw [isJsSpace_toUpper]

theorem headNS_truncate (l : List Char) (h : headNonSpace l = true) :
    headNonSpace (truncate80 l) = true := by
  unfold truncate80
  by_cases hl : l.length > 80
  · rw [if_pos hl]
    cases l with
    | nil => simp at hl
    | cons c r =>
      rw [show (77 : Nat) = 76 + 1 from rfl, List.take_succ_cons]
      exact h
  · rw [if_neg hl]
    exact h

theorem headNSrev_jsTrim (l : List Char) : headNonSpace (jsTrim l).reverse = true := by
  unfold jsTrim
  rw [List.reverse_reverse]
  exact headNS_dropWhile _

theorem headNSrev_capitalize (l : List Char) (h : headNonSpace l.reverse = true) :
    headNonSpace (capitalize l).reverse = true := by
  cases l with
  | nil => rfl
  | cons c r =>
    cases r with
    | nil =>
      show headNonSpace [Char.toUpper c] = true
      show (!isJsSpace (Char.toUpper c)) = true
      rw [isJsSpace_toUpper]
      exact h
    | cons d r2 =>
      show headNonSpace ((Char.toUpper c :: d :: r2).reverse) = true
      rw [List.reverse_cons, headNS_append_left _ _ (by simp)]
      rw [List.reverse_cons] at h
      rwa [headNS_append_left _ _ (by simp)] at h

theorem headNSrev_truncate (l : List Char) (h : headNonSpace l.reverse = true) :
    headNonSpace (truncate80 l).reverse = true := by
  unfold truncate80
  by_cases hl : l.length > 80
  · rw [if_pos hl, List.reverse_append]
    rw [show (['.', '.', '.'] : List Char).reverse = ['.', '.', '.'] from rfl]
    rw [headNS_append_left _ _ (by simp)]
    decide
  · rw [if_neg hl]
    exact h

theorem capitalize_truncate_capitalize (d : List Char) :
    capitalize (truncate80 (capitalize d)) = truncate80 (capitalize d) := by
  cases d with
  | nil => rfl
  | cons c r =>
    show capitalize (truncate80 (Char.toUpper c :: r)) = truncate80 (Char.toUpper c :: r)
    unfold truncate80
    by_cases hl : (Char.toUpper c :: r).length > 80
    · rw [if_pos hl]
      rw [show (77 : Nat) = 76 + 1 from rfl, List.take_succ_cons, List.cons_append]
      show Char.toUpper (Char.toUpper c) :: (r.take 76 ++ ['.', '.', '.'])
          = Char.toUpper c :: (r.take 76 ++ ['.', '.', '.'])
      rw [toUpper_idem]
    · rw [if_neg hl]
      show Char.toUpper (Char.toUpper c) :: r = Char.toUpper c :: r
      rw [toUpper_idem]

theorem length_truncate80 (l : List Char) : (truncate80 l).length ≤ 80 := by
  unfold truncate80
  by_cases hl : l.length > 80
  · rw [if_pos hl, List.length_append, List.length_take]
    have : min 77 l.length = 77 := by omega
    rw [this]
    rfl
  · rw [if_neg hl]
    omega

theorem truncate80_id_of_le (l : List Char) (h : l.length ≤ 80) : truncate80 l = l := by
  unfold truncate80
  rw [if_neg (by omega)]

theorem jsTrim_id_of (l : List Char) (h1 : headNonSpace l = true)
    (h2 : headNonSpace l.reverse = true) : jsTrim l = l := by
  unfold jsTrim
  rw [dropWhile_id_of_headNS l h1, dropWhile_id_of_headNS l.reverse h2, List.reverse_reverse]

theorem headNS_generateTitle (x : List Char) : headNonSpace (generateTitle x) = true := by
  unfold generateTitle
  apply headNS_truncate
  rw [headNS_capitalize]
  obtain ⟨n, hn⟩ := jsTrim_as_take (collapseWs (stripObligation
    (removeHashtags (removeBrackets (stripCheckbox x)))))
  rw [hn]
  exact headNS_take _ _ (headNS_dropWhile _)

theorem headNSrev_generateTitle (x : List Char) :
    headNonSpace (generateTitle x).reverse = true := by
  unfold generateTitle
  apply headNSrev_truncate
  apply headNSrev_capitalize
  exact headNSrev_jsTrim _

theorem capitalize_generateTitle (x : List Char) :
    capitalize (generateTitle x) = generateTitle x := by
  unfold generateTitle
  exact capitalize_truncate_capitalize _

theorem length_generateTitle (x : List Char) : (generateTitle x).length ≤ 80 := by
  unfold generateTitle
  exact length_truncate80 _

/-- Counterexample for C4: generateTitle strips only one leading
obligation phrase (the replace is anchored and not global), so on a text
with two such phrases the first pass leaves a title that itself starts
with an obligation phrase, and a second pass strips it again. -/
theorem generateTitle_not_idempotent :
    generateTitle "will will x".data = "Will x".data ∧
    generateTitle (generateTitle "will will x".data) = "X".data ∧
    generateTitle (generateTitle "will will x".data) ≠ generateTitle "will will x".data :=
  ⟨by decide, by decide, by decide⟩

/-- C4 as amended: generateTitle is idempotent on every input whose
generated title is not further changed by the leading-obligation strip,
that is, whose title does not again begin with one of need to, have to,
must, should, will, want to followed by whitespace. Every other stage of
the transform is always a fixed point on the output: the output contains
no checkbox marker, no bracket-group match, no hashtag match, no
uncollapsed whitespace, no leading or trailing whitespace, an already
capitalised first character, and at most 80 characters. -/
theorem generateTitle_idempotent_of_fixed (x : List Char)
    (h : stripObligation (generateTitle x) = generateTitle x) :
    generateTitle (generateTitle x) = generateTitle x := by
  have hbr := brClean_generateTitle x
  have hhash := hashClean_generateTitle x
  have hcol := colClean_generateTitle x
  show truncate80 (capitalize (jsTrim (collapseWs (stripObligation
    (removeHashtags (removeBrackets (stripCheckbox (generateTitle x)))))))) = generateTitle x
  have h1 : stripCheckbox (generateTitle x) = generateTitle x := stripCheckbox_id _ hbr
  rw [h1]
  have h2 : removeBrackets (generateTitle x) = generateTitle x := remBr_id _ hbr
  rw [h2]
  have h3 : removeHashtags (generateTitle x) = generateTitle x := remHash_id _ hhash
  rw [h3, h]
  have h4 : collapseWs (generateTitle x) = generateTitle x := col_id _ hcol
  rw [h4]
  rw [jsTrim_id_of _ (headNS_generateTitle x) (headNSrev_generateTitle x)]
  rw [capitalize_generateTitle x]
  exact truncate80_id_of_le _ (length_generateTitle x)

/-- Witness for C4 as amended, at a concrete title without a leading
obligation phrase. -/
theorem generateTitle_idempotent_of_fixed_witness :
    stripObligation (generateTitle "fix the bug now".data) = generateTitle "fix the bug now".data ∧
    generateTitle (generateTitle "fix the bug now".data) = generateTitle "fix the bug now".data :=
  ⟨by decide, generateTitle_idempotent_of_fixed "fix the bug now".data (by decide)⟩

end Thoughts
